import Mathlib

/-!
# Verification of the `Future` push-propagation core (`src/future.ts`)

This file gives a shallow embedding of the single source file `src/future.ts`
of the repository: an abstract `Future` class with an `occurred` flag, a
`value` slot and an ordered `listeners` list, together with the combinator
subclasses `MapFuture`, `MapToFuture`, `PureFuture`, `LiftFuture`,
`ChainFuture`, `FutureSink`, the terminal `Subscription` consumer and the
`BehaviorFuture` adapter.

The mutable object graph is embedded as a heap (`Nat → Option Node`), and the
synchronous, re-entrant call chains `resolve → push → resolve → …` are
embedded as a mutually recursive interpreter indexed by fuel.  Every nested
call consumes one unit of fuel, so the interpreter is structurally recursive;
running out of fuel is reported as `Err.fuelExhausted`, hence a run whose
error component is `none` really completed.

JavaScript exceptions (`throw new Error(...)`) are embedded as an error
component carried alongside the state: mutations performed before the throw
persist (as in JS), and once an error is raised every further step is skipped
(the exception unwinds the synchronous call chain).

Values are specialised to `Int` (the spec's examples are numeric).
-/

/-- The value type carried by futures.  The source is generic (`Future<A>`);
the claims' scenarios are numeric, so the embedding fixes `A := Int`. -/
abbrev Val := Int

namespace Fut

/-- The distinguishable errors the source can throw, plus the two artifacts of
the embedding (`fuelExhausted` for an interpreter run that was cut short,
`stuck` for a dangling heap reference, neither of which occurs in any state
reachable from the initial states used below). -/
inductive Err where
  /-- `throw new Error("A PureFuture should never be pushed to.")` -/
  | purePushed
  /-- `throw new Error("A sink should never be pushed to.")` -/
  | sinkPushed
  /-- `throw new Error("Behavior future does not support pushing behavior")` -/
  | behaviorDown
  /-- Embedding artifact: the fuel ran out before the run completed. -/
  | fuelExhausted
  /-- Embedding artifact: a heap lookup failed. -/
  | stuck
deriving DecidableEq, Repr

/-- A `Consumer<A>` sitting in a listener list: either a future (futures are
themselves consumers of their parents) or a terminal `Subscription`,
identified by a subscription id.  A `Subscription`'s side-effecting function
`f` is observed through the log: pushing value `a` to subscription `sid`
appends `(sid, a)` to the global log, recording that `f` was invoked with
`a` at that point. -/
inductive Listener where
  | future (id : Nat)
  | sub (sid : Nat)
deriving DecidableEq, Repr

/-- The variant-specific data of each `Future` subclass.  Mutable per-variant
fields (`LiftFuture.delivered`, `ChainFuture.parentOccurred`) live here. -/
inductive Kind where
  /-- `FutureSink` — no parents, resolved imperatively; `push` throws. -/
  | sink
  /-- `PureFuture` — constructed already occurred; `push` throws. -/
  | pure
  /-- `MapFuture` — `push(val)` does `this.resolve(this.f(val))`. -/
  | map (f : Val → Val) (parent : Nat)
  /-- `MapToFuture` — the fixed value is stored in the node's `value` field at
  construction (the source declares it as `public value: A`);
  `push(_)` does `this.resolve(this.value)`. -/
  | mapTo (parent : Nat)
  /-- `LiftFuture` — `f` combines the parents' stored values; `futures` is the
  parent id sequence, `delivered` the number of pushes received so far,
  `dependencies` the parent count fixed at construction.  (The source
  overwrites `this.futures[i]` with `this.futures[i].value` on the firing
  push and applies `f` to that array; since the guard `++delivered === l`
  can hold at most once, this is observationally the same as reading each
  parent's stored value at firing time, which is how the embedding reads
  them.) -/
  | lift (f : List Val → Val) (futures : List Nat) (delivered : Nat)
      (dependencies : Nat)
  /-- `ChainFuture` — `f` is the bind function; in the embedding it returns
  the heap id of the future the source's `f` returns. -/
  | chain (f : Val → Nat) (parent : Nat) (parentOccurred : Bool)
  /-- `BehaviorFuture` — adapter registered on the external behavior `b`. -/
  | behaviorF (b : Nat)

/-- The common fields of `Future<A>`: the `occurred` flag (JS leaves it
`undefined`, which the source only ever tests with `!== true`, so it is
embedded as `Bool` initialised to `false`), the `value` slot (`undefined`
until set, so `Option Val`), and the ordered listener list. -/
structure Node where
  kind : Kind
  occurred : Bool := false
  value : Option Val := none
  listeners : List Listener := []

/-- The global mutable state: the future heap, the listener registries of the
external `Behavior` objects (modelled from the spec, see `behaviorPushVal`),
and the log of subscription side effects. -/
structure FState where
  heap : Nat → Option Node
  behListeners : Nat → List Nat := fun _ => []
  log : List (Nat × Val) := []

/-- Overwrite the node stored at `id`. -/
def setNode (s : FState) (id : Nat) (n : Node) : FState :=
  { s with heap := fun j => if j = id then some n else s.heap j }

/-- The result of an interpreter step: the state after all mutations performed
so far, plus the pending exception if one was thrown. -/
structure Res where
  state : FState
  err : Option Err := none

/-- Sequencing in the presence of exceptions: once an error is pending, every
further step is skipped and the error propagates (the JS exception unwinds
the synchronous call chain; mutations already made persist). -/
def Res.andThen (r : Res) (k : FState → Res) : Res :=
  match r.err with
  | some _ => r
  | none => k r.state

mutual

/-- `Future.resolve(val)` (future.ts lines 41–48): set `occurred = true`,
store the value, then push `val` to each listener in registration order,
iterating over the listener sequence captured at entry.  The source has no
already-occurred check. -/
def resolve (fuel : Nat) (s : FState) (id : Nat) (val : Val) : Res :=
  match fuel with
  | 0 => ⟨s, some .fuelExhausted⟩
  | fuel + 1 =>
    match s.heap id with
    | none => ⟨s, some .stuck⟩
    | some n =>
      let s1 := setNode s id { n with occurred := true, value := some val }
      pushList fuel s1 n.listeners val

/-- The `for` loop of `resolve`: push `val` to each listener in order,
stopping if a push throws. -/
def pushList (fuel : Nat) (s : FState) (ls : List Listener) (val : Val) :
    Res :=
  match fuel with
  | 0 => ⟨s, some .fuelExhausted⟩
  | fuel + 1 =>
    match ls with
    | [] => ⟨s, none⟩
    | o :: rest =>
      (push fuel s o val).andThen fun s' => pushList fuel s' rest val

/-- Dispatch of `push` over the consumer variants, each clause transcribing
the corresponding subclass's `push` method. -/
def push (fuel : Nat) (s : FState) (o : Listener) (val : Val) : Res :=
  match fuel with
  | 0 => ⟨s, some .fuelExhausted⟩
  | fuel + 1 =>
    match o with
    | .sub sid => ⟨{ s with log := s.log ++ [(sid, val)] }, none⟩
    | .future id =>
      match s.heap id with
      | none => ⟨s, some .stuck⟩
      | some n =>
        match n.kind with
        | .sink => ⟨s, some .sinkPushed⟩
        | .pure => ⟨s, some .purePushed⟩
        | .map f _ => resolve fuel s id (f val)
        | .mapTo _ => resolve fuel s id (n.value.getD 0)
        | .lift f futures delivered deps =>
          let delivered' := delivered + 1
          let s1 := setNode s id
            { n with kind := .lift f futures delivered' deps }
          if delivered' = deps then
            let vals := futures.map fun j =>
              ((s1.heap j).bind Node.value).getD 0
            resolve fuel s1 id (f vals)
          else
            ⟨s1, none⟩
        | .chain f parent po =>
          if po then
            resolve fuel s id val
          else
            let s1 := setNode s id { n with kind := .chain f parent true }
            listen fuel s1 (f val) (.future id)
        | .behaviorF b =>
          let s1 := { s with behListeners := fun j =>
            if j = b then (s.behListeners b).erase id else s.behListeners j }
          resolve fuel s1 id val

/-- `Future.listen(o)` (future.ts lines 28–34): if the future has not
occurred, append `o` to the listener list; otherwise deliver the stored
value to `o` immediately and synchronously, touching no state of this
future. -/
def listen (fuel : Nat) (s : FState) (id : Nat) (o : Listener) : Res :=
  match fuel with
  | 0 => ⟨s, some .fuelExhausted⟩
  | fuel + 1 =>
    match s.heap id with
    | none => ⟨s, some .stuck⟩
    | some n =>
      if n.occurred then
        push fuel s o (n.value.getD 0)
      else
        ⟨setNode s id { n with listeners := n.listeners ++ [o] }, none⟩

end

/-! ## Construction of the variants

Each `mk…` function transcribes the corresponding subclass constructor: it
installs the freshly constructed object (common fields initialised as by the
`Future` constructor) at the caller-chosen fresh id, then performs the
constructor's `listen` calls — which, exactly as in the source, may deliver
synchronously if a parent has already occurred. -/

/-- `new FutureSink()` / `sinkFuture()`. -/
def mkSink (s : FState) (newId : Nat) : FState :=
  setNode s newId { kind := .sink }

/-- `new PureFuture(b)` / `Future.of(b)`: constructed with `occurred = true`
and the value pre-stored. -/
def mkPure (s : FState) (b : Val) (newId : Nat) : FState :=
  setNode s newId { kind := .pure, occurred := true, value := some b }

/-- `new MapFuture(f, parent)`: `super(); parent.listen(this)`. -/
def mkMap (fuel : Nat) (s : FState) (f : Val → Val) (parent newId : Nat) :
    Res :=
  listen fuel (setNode s newId { kind := .map f parent }) parent
    (.future newId)

/-- `new MapToFuture(b, parent)`: the fixed value is stored in the `value`
field at construction; then `parent.listen(this)`. -/
def mkMapTo (fuel : Nat) (s : FState) (b : Val) (parent newId : Nat) : Res :=
  listen fuel
    (setNode s newId { kind := .mapTo parent, value := some b }) parent
    (.future newId)

/-- The constructor loop of `LiftFuture`: `futures[i].listen(this)` in
parent-sequence order. -/
def listenAll (fuel : Nat) (s : FState) (parents : List Nat) (newId : Nat) :
    Res :=
  match parents with
  | [] => ⟨s, none⟩
  | p :: rest =>
    (listen fuel s p (.future newId)).andThen fun s' =>
      listenAll fuel s' rest newId

/-- `new LiftFuture(f, futures)`: `delivered = 0`,
`dependencies = futures.length`, then listen to every parent in order. -/
def mkLift (fuel : Nat) (s : FState) (f : List Val → Val)
    (futures : List Nat) (newId : Nat) : Res :=
  listenAll fuel
    (setNode s newId { kind := .lift f futures 0 futures.length })
    futures newId

/-- `new ChainFuture(f, parent)`: `parentOccurred = false`, then
`parent.listen(this)`. -/
def mkChain (fuel : Nat) (s : FState) (f : Val → Nat) (parent newId : Nat) :
    Res :=
  listen fuel (setNode s newId { kind := .chain f parent false }) parent
    (.future newId)

/-- `future.subscribe(f)` / `new Subscription(f, future)`: the subscription
registers itself via `listen` on its parent; its side effect is observed in
the log under the id `sid`. -/
def subscribe (fuel : Nat) (s : FState) (parent : Nat) (sid : Nat) : Res :=
  listen fuel s parent (.sub sid)

/-- `new BehaviorFuture(b)`: `super(); b.addListener(this)`.  The behavior's
listener registry is modelled from the spec (see `behaviorPushVal`). -/
def mkBehaviorFuture (s : FState) (b newId : Nat) : FState :=
  let s1 := setNode s newId { kind := .behaviorF b }
  { s1 with behListeners := fun j =>
      if j = b then s1.behListeners b ++ [newId] else s1.behListeners j }

/-- Modelled from the spec: the external `Behavior` type is not under `src/`
(only `src/future.ts` is); the spec describes it as a source on which
observers register via `addListener` / `removeListener` and which invokes
each registered observer once with a value when it next changes.  This
function is that notification: it pushes `val` to every observer in the
registry snapshot taken at entry, in registration order. -/
def behaviorPushVal (fuel : Nat) (s : FState) (b : Nat) (val : Val) : Res :=
  pushList fuel s ((s.behListeners b).map Listener.future) val

/-- `BehaviorFuture.changeStateDown()`: unconditionally
`throw new Error("Behavior future does not support pushing behavior")`. -/
def changeStateDown (s : FState) : Res :=
  ⟨s, some .behaviorDown⟩

/-- `Future.lift(f, ...args)` (future.ts lines 69–72): dispatch on the
declared arity of `f` — `f.length === 1 ? new MapFuture(f, args[0]) : new
LiftFuture(f, args)`.  In the embedding the combining function is the n-ary
`f : List Val → Val` and the declared arity is the explicit `arity`
argument; the unary application `f(val)` of the `MapFuture` branch is
`f [val]`. -/
def liftF (fuel : Nat) (s : FState) (arity : Nat) (f : List Val → Val)
    (args : List Nat) (newId : Nat) : Res :=
  if arity = 1 then mkMap fuel s (fun v => f [v]) (args.headD 0) newId
  else mkLift fuel s f args newId

/-! ## Observation helpers -/

/-- The empty heap. -/
def emptyState : FState := { heap := fun _ => none }

/-- The stored value of the future at `id` (`none` when unset or dangling). -/
def FState.valueAt (s : FState) (id : Nat) : Option Val :=
  (s.heap id).bind Node.value

/-- Whether the future at `id` has occurred. -/
def FState.occurredAt (s : FState) (id : Nat) : Bool :=
  ((s.heap id).map Node.occurred).getD false

/-- The listener list of the future at `id`. -/
def FState.listenersAt (s : FState) (id : Nat) : List Listener :=
  ((s.heap id).map Node.listeners).getD []

/-! ## Concrete scenario runs -/

/-- The C7 scenario of the spec: `sink = sinkFuture(); mapped = sink.map(x =>
x * 2); mapped.subscribe(print)` (the `print` side effect is subscription id
`0`), then `sink.resolve(21)`.  The whole run is the single synchronous
`resolve(21)` call. -/
def mapScenarioRun : Res :=
  let s0 := mkSink emptyState 0
  let r1 := mkMap 8 s0 (fun x => x * 2) 0 1
  let r2 := subscribe 8 r1.state 1 0
  resolve 8 r2.state 0 21

/-- The double-resolution run: a sink with one subscriber (id `0`), resolved
with `5` and then resolved a second time with `7`. -/
def doubleResolveRun : Res :=
  let s0 := mkSink emptyState 0
  let r1 := subscribe 8 s0 0 0
  let r2 := resolve 8 r1.state 0 5
  resolve 8 r2.state 0 7

/-- Claim C7: in the scenario `sink = sinkFuture(); mapped = sink.map(x => x *
2); mapped.subscribe(print)`, calling `sink.resolve(21)` invokes `print(42)`
exactly once, synchronously within the `resolve(21)` call: the state returned
by that very `resolve` call has the single log entry `(0, 42)` (and no
pending error), and the mapped future has occurred with value `42`. -/
theorem mapScenario_print42 :
    mapScenarioRun.err = none ∧
    mapScenarioRun.state.log = [(0, 42)] ∧
    mapScenarioRun.state.valueAt 1 = some 42 ∧
    mapScenarioRun.state.occurredAt 1 = true :=
  ⟨rfl, rfl, rfl, rfl⟩


/-! ## Basic state lemmas -/

theorem setNode_heap_self (s : FState) (id : Nat) (n : Node) :
    (setNode s id n).heap id = some n := by
  simp [setNode]

theorem setNode_heap_other (s : FState) (id j : Nat) (n : Node)
    (h : j ≠ id) : (setNode s id n).heap j = s.heap j := by
  simp [setNode, h]

theorem setNode_setNode (s : FState) (id : Nat) (a b : Node) :
    setNode (setNode s id a) id b = setNode s id b := by
  unfold setNode
  congr 1
  funext j
  by_cases h : j = id <;> simp [h]

theorem setNode_same (s : FState) (id : Nat) (n : Node)
    (h : s.heap id = some n) : setNode s id n = s := by
  unfold setNode
  cases s with
  | mk heap beh log =>
    congr 1
    funext j
    by_cases hj : j = id <;> simp [hj]
    exact h.symm

/-! ## Single-step unfolding lemmas for the interpreter -/

theorem resolve_step (fuel : Nat) (s : FState) (id : Nat) (val : Val)
    (n : Node) (h : s.heap id = some n) :
    resolve (fuel + 1) s id val =
      pushList fuel
        (setNode s id { n with occurred := true, value := some val })
        n.listeners val := by
  simp [resolve, h]

theorem pushList_nil (fuel : Nat) (s : FState) (v : Val) :
    pushList (fuel + 1) s [] v = ⟨s, none⟩ := rfl

theorem pushList_cons (fuel : Nat) (s : FState) (o : Listener)
    (rest : List Listener) (v : Val) :
    pushList (fuel + 1) s (o :: rest) v =
      (push fuel s o v).andThen fun s' => pushList fuel s' rest v := rfl

theorem push_sub (fuel : Nat) (s : FState) (sid : Nat) (v : Val) :
    push (fuel + 1) s (.sub sid) v =
      ⟨{ s with log := s.log ++ [(sid, v)] }, none⟩ := rfl

theorem andThen_ok (s : FState) (k : FState → Res) :
    Res.andThen ⟨s, none⟩ k = k s := rfl

theorem listen_unoccurred (fuel : Nat) (s : FState) (id : Nat) (o : Listener)
    (n : Node) (h : s.heap id = some n) (ho : n.occurred = false) :
    listen (fuel + 1) s id o =
      ⟨setNode s id { n with listeners := n.listeners ++ [o] }, none⟩ := by
  simp [listen, h, ho]

theorem listen_occurred (fuel : Nat) (s : FState) (id : Nat) (o : Listener)
    (n : Node) (h : s.heap id = some n) (ho : n.occurred = true) :
    listen (fuel + 1) s id o = push fuel s o (n.value.getD 0) := by
  simp [listen, h, ho]

/-! ## Registration of a batch of subscriptions -/

/-- Register the subscriptions `sids` (i.e. `new Subscription(f, future)`
for each, which registers via `listen`), in order, on the future at `id`. -/
def regSubs (s : FState) (id : Nat) (sids : List Nat) : FState :=
  sids.foldl (fun s sid => (subscribe 1 s id sid).state) s

/-- Registering subscriptions on an unoccurred future appends them to its
listener list in registration order. -/
theorem regSubs_eq (sids : List Nat) :
    ∀ (s : FState) (id : Nat) (n : Node), s.heap id = some n →
      n.occurred = false →
      regSubs s id sids =
        setNode s id
          { n with listeners := n.listeners ++ sids.map Listener.sub } := by
  induction sids with
  | nil =>
    intro s id n hn ho
    simp [regSubs, setNode_same s id n hn]
  | cons sid rest ih =>
    intro s id n hn ho
    have hstep : (subscribe 1 s id sid).state =
        setNode s id { n with listeners := n.listeners ++ [.sub sid] } := by
      rw [subscribe, listen_unoccurred 0 s id _ n hn ho]
    have hrw : regSubs s id (sid :: rest) =
        regSubs (setNode s id
          { n with listeners := n.listeners ++ [.sub sid] }) id rest := by
      simp [regSubs, List.foldl_cons, hstep]
    rw [hrw, ih _ id { n with listeners := n.listeners ++ [.sub sid] }
        (setNode_heap_self ..) ho, setNode_setNode]
    simp

/-- Pushing a value to a list of subscription consumers appends one log entry
per consumer, in order, and touches nothing else. -/
theorem pushList_subs (sids : List Nat) :
    ∀ (fuel : Nat) (s : FState) (v : Val), sids.length + 1 ≤ fuel →
      pushList fuel s (sids.map Listener.sub) v =
        ⟨{ s with log := s.log ++ sids.map fun sid => (sid, v) }, none⟩ := by
  induction sids with
  | nil =>
    intro fuel s v h
    match fuel, h with
    | f + 1, _ => simp [pushList_nil]
  | cons sid rest ih =>
    intro fuel s v h
    match fuel, h with
    | f + 1, h =>
      have hf : rest.length + 1 ≤ f := by
        simpa [Nat.succ_le_succ_iff] using h
      match f, hf with
      | f2 + 1, hf =>
        rw [List.map_cons, pushList_cons, push_sub, andThen_ok,
          ih _ _ _ hf]
        simp

/-- Claim C2: for every sequence of consumers registered via `listen` (here:
subscriptions `sids`, registered in that order on a fresh sink before it is
resolved) and every value `v`, `resolve(v)` invokes `push(v)` on each of
them exactly once, in the exact order of registration: the log of the state
returned by `resolve` is precisely `sids` paired with `v`, in order.  The
future has then occurred with stored value `v`, and no error was raised. -/
theorem resolve_notifies_in_order (sids : List Nat) (v : Val) (fuel : Nat)
    (h : sids.length + 2 ≤ fuel) :
    (resolve fuel (regSubs (mkSink emptyState 0) 0 sids) 0 v).err = none ∧
    (resolve fuel (regSubs (mkSink emptyState 0) 0 sids) 0 v).state.log =
      sids.map (fun sid => (sid, v)) ∧
    (resolve fuel (regSubs (mkSink emptyState 0) 0 sids) 0 v).state.valueAt 0
      = some v ∧
    (resolve fuel (regSubs (mkSink emptyState 0) 0 sids) 0 v).state.occurredAt
      0 = true := by
  obtain ⟨f, rfl⟩ : ∃ f, fuel = f + 1 := ⟨fuel - 1, by omega⟩
  have hreg : regSubs (mkSink emptyState 0) 0 sids =
      setNode (mkSink emptyState 0) 0
        { kind := .sink, listeners := sids.map Listener.sub } := by
    rw [regSubs_eq sids _ 0 { kind := .sink } rfl rfl]
    simp
  rw [hreg, resolve_step f _ 0 v _ (setNode_heap_self ..)]
  simp only []
  rw [pushList_subs sids f _ v (by simpa using h)]
  refine ⟨rfl, ?_, ?_, ?_⟩ <;>
    simp [FState.valueAt, FState.occurredAt, setNode, mkSink, emptyState]

/-- Resolving a future whose listeners are exactly the subscriptions `sids`:
closed form of the resulting state. -/
theorem resolve_sink_subs (s : FState) (id : Nat) (n : Node)
    (sids : List Nat) (v : Val) (f : Nat) (hn : s.heap id = some n)
    (hl : n.listeners = sids.map Listener.sub)
    (hf : sids.length + 1 ≤ f) :
    resolve (f + 1) s id v =
      ⟨{ setNode s id { n with occurred := true, value := some v } with
          log := s.log ++ sids.map fun sid => (sid, v) }, none⟩ := by
  rw [resolve_step f s id v n hn, hl, pushList_subs sids f _ v hf]
  rfl

/-- Witness for `resolve_notifies_in_order` at `sids = [5, 7]`, `v = 4`,
`fuel = 9`. -/
theorem resolve_notifies_in_order_witness :
    ([5, 7].length + 2 ≤ 9) ∧
    (resolve 9 (regSubs (mkSink emptyState 0) 0 [5, 7]) 0 4).state.log =
      [(5, 4), (7, 4)] :=
  ⟨by decide,
    by simpa using (resolve_notifies_in_order [5, 7] 4 9 (by decide)).2.1⟩

/-- Claim C1 fails on the code: `Future.resolve` has no already-occurred
check.  In the concrete run `doubleResolveRun` (a sink with one subscriber,
resolved with `5` and then again with `7`) the second `resolve` call raises
no error, changes the stored value from `5` to `7`, and re-notifies the
listener (the log holds two entries, one per `resolve` call) — contradicting
every part of the claim. -/
theorem doubleResolve_not_rejected :
    doubleResolveRun.err = none ∧
    doubleResolveRun.state.valueAt 0 = some 7 ∧
    ¬ doubleResolveRun.state.valueAt 0 = some 5 ∧
    doubleResolveRun.state.log = [(0, 5), (0, 7)] :=
  ⟨rfl, rfl, by decide, rfl⟩

/-- Claim C1 amended: calling `resolve` on an already-occurred future is not
rejected — it raises no error, overwrites the stored value with the new
value, and re-pushes the new value to every listener registered before the
first occurrence, in registration order. -/
theorem resolve_twice_overwrites (sids : List Nat) (v1 v2 : Val)
    (fuel : Nat) (h : sids.length + 2 ≤ fuel) :
    (resolve fuel (resolve fuel (regSubs (mkSink emptyState 0) 0 sids) 0
      v1).state 0 v2).err = none ∧
    (resolve fuel (resolve fuel (regSubs (mkSink emptyState 0) 0 sids) 0
      v1).state 0 v2).state.valueAt 0 = some v2 ∧
    (resolve fuel (resolve fuel (regSubs (mkSink emptyState 0) 0 sids) 0
      v1).state 0 v2).state.log =
      (sids.map fun sid => (sid, v1)) ++ (sids.map fun sid => (sid, v2)) := by
  obtain ⟨f, rfl⟩ : ∃ f, fuel = f + 1 := ⟨fuel - 1, by omega⟩
  have hreg : regSubs (mkSink emptyState 0) 0 sids =
      setNode (mkSink emptyState 0) 0
        { kind := .sink, listeners := sids.map Listener.sub } := by
    rw [regSubs_eq sids _ 0 { kind := .sink } rfl rfl]
    simp
  rw [hreg, resolve_sink_subs _ 0 _ sids v1 f (setNode_heap_self ..) rfl
    (by omega)]
  dsimp only
  rw [resolve_sink_subs
    { setNode (setNode (mkSink emptyState 0) 0
        { kind := .sink, occurred := false, value := none,
          listeners := sids.map Listener.sub }) 0
        { kind := .sink, occurred := true, value := some v1,
          listeners := sids.map Listener.sub } with
      log := (setNode (mkSink emptyState 0) 0
        { kind := .sink, occurred := false, value := none,
          listeners := sids.map Listener.sub }).log ++
        sids.map fun sid => (sid, v1) } 0
    { kind := .sink, occurred := true, value := some v1,
      listeners := sids.map Listener.sub }
    sids v2 f (by simp [setNode]) rfl (by omega)]
  refine ⟨rfl, ?_, ?_⟩ <;>
    simp [FState.valueAt, setNode, mkSink, emptyState]

/-- Witness for `resolve_twice_overwrites` at `sids = [0]`, values `5` then
`7`, `fuel = 8`. -/
theorem resolve_twice_overwrites_witness :
    ([0].length + 2 ≤ 8) ∧
    (resolve 8 (resolve 8 (regSubs (mkSink emptyState 0) 0 [0]) 0 5).state
      0 7).state.log = [(0, 5), (0, 7)] :=
  ⟨by decide,
    by simpa using (resolve_twice_overwrites [0] 5 7 8 (by decide)).2.2⟩

/-- Claim C3: calling `listen` on a future that has already occurred with
stored value `v` synchronously pushes `v` to the new consumer — for any
consumer `o` the call is exactly `push o v` on the unchanged state — and for
a subscription consumer the result is the unchanged state with only the log
extended, so nothing is appended to the future's listener list. -/
theorem listen_after_occurrence (s : FState) (id : Nat) (n : Node) (v : Val)
    (sid : Nat) (fuel : Nat) (hn : s.heap id = some n)
    (ho : n.occurred = true) (hv : n.value = some v) :
    (∀ o, listen (fuel + 2) s id o = push (fuel + 1) s o v) ∧
    listen (fuel + 2) s id (.sub sid) =
      ⟨{ s with log := s.log ++ [(sid, v)] }, none⟩ ∧
    (listen (fuel + 2) s id (.sub sid)).state.listenersAt id =
      s.listenersAt id := by
  have hgen : ∀ o, listen (fuel + 2) s id o = push (fuel + 1) s o v := by
    intro o
    rw [listen_occurred (fuel + 1) s id o n hn ho, hv]
    rfl
  have hsub : listen (fuel + 2) s id (.sub sid) =
      ⟨{ s with log := s.log ++ [(sid, v)] }, none⟩ := by
    rw [hgen (.sub sid), push_sub]
  exact ⟨hgen, hsub, by rw [hsub]; rfl⟩

/-- Witness for `listen_after_occurrence`: a `PureFuture` holding `9` (which
is occurred from construction), a late subscription `3`. -/
theorem listen_after_occurrence_witness :
    (mkPure emptyState 9 0).heap 0 =
      some { kind := .pure, occurred := true, value := some 9 } ∧
    (listen 5 (mkPure emptyState 9 0) 0 (.sub 3)).state.log = [(3, 9)] := by
  refine ⟨rfl, ?_⟩
  rw [(listen_after_occurrence (mkPure emptyState 9 0) 0
    { kind := .pure, occurred := true, value := some 9 } 9 3 3
    rfl rfl rfl).2.1]
  rfl

/-- Claim C8: pushing to a `PureFuture`, pushing to a `FutureSink`, and
delivering the disallowed downward notification to the `BehaviorFuture`
adapter each fail immediately and loudly: each raises its own error, the
three errors are pairwise distinct, and the state is returned untouched
(no silent no-op mutation, no corruption). -/
theorem contract_violation_errors (s : FState) (idS idP : Nat)
    (nS nP : Node) (v : Val) (fuel : Nat)
    (hS : s.heap idS = some nS) (hkS : nS.kind = .sink)
    (hP : s.heap idP = some nP) (hkP : nP.kind = .pure) :
    push (fuel + 1) s (.future idS) v = ⟨s, some .sinkPushed⟩ ∧
    push (fuel + 1) s (.future idP) v = ⟨s, some .purePushed⟩ ∧
    changeStateDown s = ⟨s, some .behaviorDown⟩ ∧
    Err.sinkPushed ≠ Err.purePushed ∧
    Err.sinkPushed ≠ Err.behaviorDown ∧
    Err.purePushed ≠ Err.behaviorDown := by
  refine ⟨?_, ?_, rfl, by decide, by decide, by decide⟩ <;>
    simp [push, hS, hkS, hP, hkP]

/-- Witness for `contract_violation_errors`: a heap holding a sink at `0`
and a pure future at `1`. -/
theorem contract_violation_errors_witness :
    push 4 (mkPure (mkSink emptyState 0) 9 1) (.future 0) 2 =
      ⟨mkPure (mkSink emptyState 0) 9 1, some .sinkPushed⟩ ∧
    push 4 (mkPure (mkSink emptyState 0) 9 1) (.future 1) 2 =
      ⟨mkPure (mkSink emptyState 0) 9 1, some .purePushed⟩ := by
  have h := contract_violation_errors (mkPure (mkSink emptyState 0) 9 1)
    0 1 { kind := .sink }
    { kind := .pure, occurred := true, value := some 9 } 2 3
    rfl rfl rfl rfl
  exact ⟨h.1, h.2.1⟩

/-! ## Map–map fusion scenario (claim C6) -/

/-- State before resolution for `F.map(f).map(g)`: a sink at `0`,
`F.map(f)` at `1`, `(F.map(f)).map(g)` at `2`, and a subscription `0`
observing the outer map. -/
def mapMapPre (f g : Val → Val) : FState :=
  (subscribe 8 (mkMap 8 (mkMap 8 (mkSink emptyState 0) f 0 1).state g 1
    2).state 2 0).state

/-- State before resolution for the fused `F.map(x => g(f(x)))`: a sink at
`0`, the fused map at `1`, and a subscription `0` observing it. -/
def mapFusedPre (f g : Val → Val) : FState :=
  (subscribe 8 (mkMap 8 (mkSink emptyState 0) (fun x => g (f x)) 0 1).state
    1 0).state

/-- Claim C6: `F.map(f).map(g)` behaves on occurrence identically to
`F.map(x => g(f(x)))`: before `F` resolves neither derived future has
occurred; the single `resolve(v)` call on `F` makes both occur (same firing
time — both fire synchronously inside that call), with the same final value
`g(f(v))`, and the observable side-effect logs of the two runs are equal. -/
theorem map_map_fusion (f g : Val → Val) (v : Val) :
    (mapMapPre f g).occurredAt 2 = false ∧
    (mapFusedPre f g).occurredAt 1 = false ∧
    (resolve 16 (mapMapPre f g) 0 v).err = none ∧
    (resolve 16 (mapFusedPre f g) 0 v).err = none ∧
    (resolve 16 (mapMapPre f g) 0 v).state.occurredAt 2 = true ∧
    (resolve 16 (mapFusedPre f g) 0 v).state.occurredAt 1 = true ∧
    (resolve 16 (mapMapPre f g) 0 v).state.valueAt 2 = some (g (f v)) ∧
    (resolve 16 (mapFusedPre f g) 0 v).state.valueAt 1 = some (g (f v)) ∧
    (resolve 16 (mapMapPre f g) 0 v).state.log = [(0, g (f v))] ∧
    (resolve 16 (mapMapPre f g) 0 v).state.log =
      (resolve 16 (mapFusedPre f g) 0 v).state.log :=
  ⟨rfl, rfl, rfl, rfl, rfl, rfl, rfl, rfl, rfl, rfl⟩

/-! ## `Future.lift` arity dispatch (claim C10) -/

/-- Claim C10: `lift(f, ...args)` dispatches on the declared arity of `f`
(future.ts lines 69–72).  With arity `1` it constructs a `MapFuture` over
the first future argument — so it is definitionally `m.map(v => f(v))` —
and in the scenario `m = sink; lifted = lift₁(f, m)` the lifted future
occurs exactly when `m` occurs, with value `f(m's value)`, no subscriber
notified before, one notification after.  The n-ary `LiftFuture` machinery
is used exactly when the arity is not `1`. -/
theorem lift_arity_one_is_map (f : List Val → Val) (args : List Nat)
    (newId : Nat) (s : FState) (fuel : Nat) (a : Nat) (ha : a ≠ 1)
    (v : Val) :
    liftF fuel s 1 f args newId =
      mkMap fuel s (fun w => f [w]) (args.headD 0) newId ∧
    liftF fuel s a f args newId = mkLift fuel s f args newId ∧
    ((subscribe 8 (liftF 8 (mkSink emptyState 0) 1 f [0] 1).state 1
        0).state.occurredAt 1 = false ∧
      (subscribe 8 (liftF 8 (mkSink emptyState 0) 1 f [0] 1).state 1
        0).state.log = [] ∧
      (resolve 12 (subscribe 8 (liftF 8 (mkSink emptyState 0) 1 f [0] 1).state
        1 0).state 0 v).err = none ∧
      (resolve 12 (subscribe 8 (liftF 8 (mkSink emptyState 0) 1 f [0] 1).state
        1 0).state 0 v).state.occurredAt 1 = true ∧
      (resolve 12 (subscribe 8 (liftF 8 (mkSink emptyState 0) 1 f [0] 1).state
        1 0).state 0 v).state.valueAt 1 = some (f [v]) ∧
      (resolve 12 (subscribe 8 (liftF 8 (mkSink emptyState 0) 1 f [0] 1).state
        1 0).state 0 v).state.log = [(0, f [v])] ∧
      resolve 12 (subscribe 8 (liftF 8 (mkSink emptyState 0) 1 f [0] 1).state
        1 0).state 0 v =
        resolve 12 (subscribe 8 (mkMap 8 (mkSink emptyState 0)
          (fun w => f [w]) 0 1).state 1 0).state 0 v) := by
  refine ⟨rfl, ?_, rfl, rfl, rfl, rfl, rfl, rfl, rfl⟩
  simp [liftF, ha]

/-- Witness for `lift_arity_one_is_map` at `a = 2`,
`f = sum`, `args = [0]`, `v = 5`. -/
theorem lift_arity_one_is_map_witness :
    (2 ≠ 1) ∧
    liftF 3 emptyState 2 (fun vs => vs.foldl (· + ·) 0) [0] 1 =
      mkLift 3 emptyState (fun vs => vs.foldl (· + ·) 0) [0] 1 :=
  ⟨by decide,
    (lift_arity_one_is_map (fun vs => vs.foldl (· + ·) 0) [0] 1 emptyState 3
      2 (by decide) 5).2.1⟩

/-! ## Per-kind step lemmas for `push` -/

theorem push_map_step (fuel : Nat) (s : FState) (id : Nat) (n : Node)
    (f : Val → Val) (p : Nat) (val : Val) (h : s.heap id = some n)
    (hk : n.kind = .map f p) :
    push (fuel + 1) s (.future id) val = resolve fuel s id (f val) := by
  simp [push, h, hk]

theorem push_chain_fresh (fuel : Nat) (s : FState) (id : Nat) (n : Node)
    (f : Val → Nat) (p : Nat) (val : Val) (h : s.heap id = some n)
    (hk : n.kind = .chain f p false) :
    push (fuel + 1) s (.future id) val =
      listen fuel (setNode s id { n with kind := .chain f p true }) (f val)
        (.future id) := by
  simp [push, h, hk]

theorem push_chain_second (fuel : Nat) (s : FState) (id : Nat) (n : Node)
    (f : Val → Nat) (p : Nat) (val : Val) (h : s.heap id = some n)
    (hk : n.kind = .chain f p true) :
    push (fuel + 1) s (.future id) val = resolve fuel s id val := by
  simp [push, h, hk]

theorem push_lift_step (fuel : Nat) (s : FState) (id : Nat) (n : Node)
    (f : List Val → Val) (futs : List Nat) (d deps : Nat) (val : Val)
    (h : s.heap id = some n) (hk : n.kind = .lift f futs d deps)
    (hne : ¬ d + 1 = deps) :
    push (fuel + 1) s (.future id) val =
      ⟨setNode s id { n with kind := .lift f futs (d + 1) deps }, none⟩ := by
  simp [push, h, hk, hne]

theorem push_lift_fire (fuel : Nat) (s : FState) (id : Nat) (n : Node)
    (f : List Val → Val) (futs : List Nat) (d deps : Nat) (val : Val)
    (h : s.heap id = some n) (hk : n.kind = .lift f futs d deps)
    (heq : d + 1 = deps) :
    push (fuel + 1) s (.future id) val =
      resolve fuel (setNode s id { n with kind := .lift f futs (d + 1) deps })
        id
        (f (futs.map fun j =>
          (((setNode s id { n with kind := .lift f futs (d + 1) deps }).heap
            j).bind Node.value).getD 0)) := by
  simp [push, h, hk, heq]

theorem push_behavior_step (fuel : Nat) (s : FState) (id : Nat) (n : Node)
    (b : Nat) (val : Val) (h : s.heap id = some n)
    (hk : n.kind = .behaviorF b) :
    push (fuel + 1) s (.future id) val =
      resolve fuel
        { s with behListeners := fun j =>
            if j = b then (s.behListeners b).erase id
            else s.behListeners j }
        id val := by
  simp [push, h, hk]

/-! ## Chain (sequential bind) scenarios (claim C5) -/

/-- State for the chain scenario: a sink `F` at `0`, a second sink at `1`
(the future the bind function will return), `F.chain(f)` at `2` (listening
on `F`), and a subscription `0` observing the chain. -/
def chainPre (f : Val → Nat) : FState :=
  (subscribe 8 (mkChain 8 (mkSink (mkSink emptyState 0) 1) f 0 2).state 2
    0).state

/-- State for the chain scenario in which the bind function returns an
already-occurred future: as `chainPre`, but the future at `1` is a
`PureFuture` holding `b`. -/
def chainPurePre (f : Val → Nat) (b : Val) : FState :=
  (subscribe 8 (mkChain 8 (mkPure (mkSink emptyState 0) b 1) f 0 2).state 2
    0).state

/-- Claim C5: `F.chain(f)` does not occur until both `F` and the future
returned by `f(F's value)` have occurred, and then holds that second
future's value.  Concretely, with `f(v0)` returning the unoccurred future
`1`: after `F.resolve(v0)` the chain has not occurred and nothing has been
delivered; only after the second future resolves with `v1` does the chain
occur, with value `v1`, notifying its subscriber once.  And if `f(v0)`
returns an already-occurred future holding `b`, the chain occurs within the
same synchronous `F.resolve(v0)` call, with value `b`. -/
theorem chain_waits_for_both (f : Val → Nat) (v0 v1 b : Val)
    (hf : f v0 = 1) :
    (chainPre f).occurredAt 2 = false ∧
    (resolve 16 (chainPre f) 0 v0).err = none ∧
    (resolve 16 (chainPre f) 0 v0).state.occurredAt 2 = false ∧
    (resolve 16 (chainPre f) 0 v0).state.log = [] ∧
    (resolve 16 (resolve 16 (chainPre f) 0 v0).state 1 v1).err = none ∧
    (resolve 16 (resolve 16 (chainPre f) 0 v0).state 1
      v1).state.occurredAt 2 = true ∧
    (resolve 16 (resolve 16 (chainPre f) 0 v0).state 1
      v1).state.valueAt 2 = some v1 ∧
    (resolve 16 (resolve 16 (chainPre f) 0 v0).state 1
      v1).state.log = [(0, v1)] ∧
    (resolve 16 (chainPurePre f b) 0 v0).err = none ∧
    (resolve 16 (chainPurePre f b) 0 v0).state.occurredAt 2 = true ∧
    (resolve 16 (chainPurePre f b) 0 v0).state.valueAt 2 = some b ∧
    (resolve 16 (chainPurePre f b) 0 v0).state.log = [(0, b)] := by
  refine ⟨rfl, ?_, ?_, ?_, ?_, ?_, ?_, ?_, ?_, ?_, ?_, ?_⟩ <;>
    simp [chainPre, chainPurePre, subscribe, mkChain, mkSink, mkPure,
      emptyState, setNode, resolve, pushList, push, listen, Res.andThen,
      FState.valueAt, FState.occurredAt, hf]

/-- Witness for `chain_waits_for_both` at `f = const 1`, `v0 = 3`,
`v1 = 5`, `b = 9`. -/
theorem chain_waits_for_both_witness :
    ((fun _ : Val => 1) 3 = 1) ∧
    (resolve 16 (resolve 16 (chainPre fun _ => 1) 0 3).state 1
      5).state.valueAt 2 = some 5 :=
  ⟨rfl, (chain_waits_for_both (fun _ => 1) 3 5 9 rfl).2.2.2.2.2.2.1⟩

/-! ## Behavior adapter (claims C8/C9) -/

/-- State for the behavior-adapter scenario: behavior `0` with a
`BehaviorFuture` adapter at heap id `0` registered on it (via
`b.addListener(this)` in the constructor), and a subscription `7` observing
the adapter. -/
def behPre : FState :=
  (subscribe 4 (mkBehaviorFuture emptyState 0 0) 0 7).state

/-- Claim C9: on receiving a push from its behavior, the `BehaviorFuture`
first deregisters itself from the source and only then resolves: `push` on
a behavior-adapter node literally equals `resolve` run on the state from
which the adapter has already been removed from the behavior's listener
registry (first conjunct, for every state).  Consequently, in the concrete
scenario, after one behavior notification the adapter is deregistered and
resolved with the pushed value, and a second notification from the source
does not reach the adapter at all: its value and its subscriber's log are
unchanged. -/
theorem behavior_deregisters_before_resolve (v1 v2 : Val) :
    (∀ (s : FState) (id b : Nat) (n : Node) (val : Val) (fuel : Nat),
      s.heap id = some n → n.kind = .behaviorF b →
      push (fuel + 1) s (.future id) val =
        resolve fuel
          { s with behListeners := fun j =>
              if j = b then (s.behListeners b).erase id
              else s.behListeners j } id val) ∧
    (behaviorPushVal 8 behPre 0 v1).err = none ∧
    (behaviorPushVal 8 behPre 0 v1).state.behListeners 0 = [] ∧
    (behaviorPushVal 8 behPre 0 v1).state.valueAt 0 = some v1 ∧
    (behaviorPushVal 8 behPre 0 v1).state.log = [(7, v1)] ∧
    (behaviorPushVal 8 (behaviorPushVal 8 behPre 0 v1).state 0 v2).err =
      none ∧
    (behaviorPushVal 8 (behaviorPushVal 8 behPre 0 v1).state 0
      v2).state.valueAt 0 = some v1 ∧
    (behaviorPushVal 8 (behaviorPushVal 8 behPre 0 v1).state 0
      v2).state.log = [(7, v1)] := by
  refine ⟨?_, rfl, rfl, rfl, rfl, rfl, rfl, rfl⟩
  intro s id b n val fuel h hk
  exact push_behavior_step fuel s id n b val h hk

/-- Witness for `behavior_deregisters_before_resolve`: the ordering equation
applied at the concrete scenario state. -/
theorem behavior_deregisters_witness :
    push 4 behPre (.future 0) 11 =
      resolve 3
        { behPre with behListeners := fun j =>
            if j = 0 then (behPre.behListeners 0).erase 0
            else behPre.behListeners j } 0 11 :=
  (behavior_deregisters_before_resolve 11 0).1 behPre 0 0 _ 11 3 rfl rfl

/-! ## The n-ary lift (claim C4)

The scenario: `n` sinks at ids `0 … n-1`, `joined = new LiftFuture(f,
sinks)` at id `n` (registering on every parent in parent-sequence order at
construction), a subscription `0` observing `joined`, and then the sinks
resolved one by one in an arbitrary order. -/

/-- `n` fresh sinks at ids `0 … n-1`. -/
def mkSinks (n : Nat) : FState :=
  (List.range n).foldl mkSink emptyState

/-- The construction phase: `n` sinks, the `LiftFuture` over all of them at
id `n`, and a subscription `0` on the lift. -/
def liftSetup (n : Nat) (f : List Val → Val) : Res :=
  (mkLift 1 (mkSinks n) f (List.range n) n).andThen fun s1 =>
    subscribe 1 s1 n 0

/-- A sink node wired to the lift at `tgt`, occurred/value given by `w`. -/
def sinkAt (w : Option Val) (tgt : Nat) : Node :=
  { kind := .sink, occurred := w.isSome, value := w,
    listeners := [.future tgt] }

/-- The scenario state while the lift has not yet fired: sink `j < n` has
state `occ j`, the lift's delivered counter is `k`. -/
def liftMid (n : Nat) (f : List Val → Val) (occ : Nat → Option Val)
    (k : Nat) : FState :=
  { heap := fun j =>
      if j < n then some (sinkAt (occ j) n)
      else if j = n then
        some { kind := .lift f (List.range n) k n, listeners := [.sub 0] }
      else none }

/-- The scenario state after the lift has fired: every sink holds `occ j`,
the lift has occurred with the combination of the parents' stored values in
parent-sequence order, and the subscriber was notified exactly once. -/
def liftFinal (n : Nat) (f : List Val → Val) (occ : Nat → Option Val) :
    FState :=
  { heap := fun j =>
      if j < n then some (sinkAt (occ j) n)
      else if j = n then
        some
          { kind := .lift f (List.range n) n n
            occurred := true
            value := some (f ((List.range n).map fun j => (occ j).getD 0))
            listeners := [.sub 0] }
      else none,
    log := [(0, f ((List.range n).map fun j => (occ j).getD 0))] }

/-- Resolve the futures `ids` in order, with value `v i` for future `i`. -/
def resolveSeq (fuel : Nat) (s : FState) (ids : List Nat) (v : Nat → Val) :
    Res :=
  match ids with
  | [] => ⟨s, none⟩
  | i :: rest =>
    (resolve fuel s i (v i)).andThen fun s' => resolveSeq fuel s' rest v

theorem mkSinks_eq (n : Nat) :
    mkSinks n =
      { heap := fun j => if j < n then some { kind := .sink } else none } := by
  induction n with
  | zero =>
    show emptyState = _
    unfold emptyState
    congr 1
  | succ m ih =>
    have : mkSinks (m + 1) = mkSink (mkSinks m) m := by
      simp [mkSinks, List.range_succ]
    rw [this, ih]
    unfold mkSink setNode
    congr 1
    funext j
    by_cases hj : j = m
    · simp [hj]
    · by_cases hlt : j < m
      · simp [hj, hlt, Nat.lt_succ_of_lt hlt]
      · have : ¬ j < m + 1 := by omega
        simp [hj, hlt, this]

/-- The `LiftFuture` constructor loop on fresh (unoccurred) parents appends
the lift as listener to each of them. -/
theorem listenAll_unoccurred (ps : List Nat) :
    ∀ (s : FState) (newId : Nat), ps.Nodup →
      (∀ p ∈ ps, ∃ nd, s.heap p = some nd ∧ nd.occurred = false) →
      listenAll 1 s ps newId =
        ⟨{ s with heap := fun j =>
            if j ∈ ps then
              (s.heap j).map fun nd =>
                { nd with listeners := nd.listeners ++ [.future newId] }
            else s.heap j }, none⟩ := by
  induction ps with
  | nil =>
    intro s newId _ _
    simp [listenAll]
  | cons p rest ih =>
    intro s newId hnodup hfresh
    obtain ⟨nd, hnd, ho⟩ := hfresh p (by simp)
    have hstep := listen_unoccurred 0 s p (.future newId) nd hnd ho
    have hne : p ∉ rest := (List.nodup_cons.mp hnodup).1
    have hrec := ih (setNode s p
      { nd with listeners := nd.listeners ++ [.future newId] }) newId
      (List.nodup_cons.mp hnodup).2
      (by
        intro q hq
        obtain ⟨nq, hnq, hoq⟩ := hfresh q (by simp [hq])
        refine ⟨nq, ?_, hoq⟩
        rw [setNode_heap_other s p q _ (by rintro rfl; exact hne hq)]
        exact hnq)
    show (listen 1 s p (.future newId)).andThen
        (fun s' => listenAll 1 s' rest newId) = _
    rw [hstep, andThen_ok, hrec]
    congr 1
    congr 1
    funext j
    by_cases hjr : j ∈ rest
    · have hjp : j ≠ p := by rintro rfl; exact hne hjr
      simp only [hjr, if_pos, List.mem_cons, or_true, if_true]
      rw [setNode_heap_other s p j _ hjp]
    · by_cases hjp : j = p
      · subst hjp
        simp only [hjr, if_neg, not_false_iff, List.mem_cons, true_or,
          if_true, if_pos rfl]
        rw [setNode_heap_self, hnd]
        rfl
      · have : j ∉ (p :: rest) := by simp [hjp, hjr]
        simp only [hjr, if_neg, not_false_iff, this]
        rw [setNode_heap_other s p j _ hjp]

/-- The construction phase produces exactly the `liftMid` state with no sink
occurred and a zero delivered counter. -/
theorem liftSetup_eq (n : Nat) (f : List Val → Val) :
    liftSetup n f = ⟨liftMid n f (fun _ => none) 0, none⟩ := by
  unfold liftSetup mkLift
  rw [mkSinks_eq]
  have hla := listenAll_unoccurred (List.range n)
    (setNode { heap := fun j => if j < n then some { kind := .sink }
        else none } n
      { kind := .lift f (List.range n) 0 (List.range n).length }) n
    (List.nodup_range n)
    (by
      intro p hp
      have hpn : p < n := List.mem_range.mp hp
      refine ⟨{ kind := .sink }, ?_, rfl⟩
      rw [setNode_heap_other _ n p _ (by omega)]
      simp [hpn])
  rw [hla, andThen_ok]
  rw [subscribe, listen_unoccurred 0 _ n (.sub 0)
    { kind := .lift f (List.range n) 0 (List.range n).length }
    (by simp [setNode]) rfl]
  congr 1
  unfold setNode liftMid
  congr 1
  funext j
  by_cases hjn : j = n
  · subst hjn
    simp [sinkAt]
  · by_cases hlt : j < n
    · simp [hjn, hlt, List.mem_range, setNode, sinkAt]
    · simp [hjn, hlt, List.mem_range, setNode]

theorem andThen_pure (r : Res) : r.andThen (fun s' => ⟨s', none⟩) = r := by
  obtain ⟨st, e⟩ := r
  cases e <;> rfl

theorem pushList_single (fuel : Nat) (s : FState) (o : Listener) (v : Val) :
    pushList (fuel + 2) s [o] v = push (fuel + 1) s o v := by
  show (push (fuel + 1) s o v).andThen
    (fun s' => pushList (fuel + 1) s' [] v) = _
  have hnil : (fun s' => pushList (fuel + 1) s' [] v) =
      fun s' => (⟨s', none⟩ : Res) := by
    funext s'
    exact pushList_nil fuel s' v
  rw [hnil, andThen_pure]

theorem liftMid_bump (n : Nat) (f : List Val → Val) (occ : Nat → Option Val)
    (k k' : Nat) :
    setNode (liftMid n f occ k) n
      { kind := .lift f (List.range n) k' n, occurred := false,
        value := none, listeners := [.sub 0] } =
      liftMid n f occ k' := by
  unfold setNode liftMid
  congr 1
  funext j
  by_cases hjn : j = n
  · subst hjn
    simp
  · simp [hjn]

theorem liftMid_set_sink (n : Nat) (f : List Val → Val)
    (occ : Nat → Option Val) (k i : Nat) (w : Val) (hi : i < n) :
    setNode (liftMid n f occ k) i
      { sinkAt (occ i) n with occurred := true, value := some w } =
      liftMid n f (fun j => if j = i then some w else occ j) k := by
  unfold setNode liftMid
  congr 1
  funext j
  by_cases hji : j = i
  · subst hji
    simp [hi, sinkAt]
  · simp [hji]

/-- Resolving a not-yet-resolved sink while at least one other parent is
still missing: the sink stores its value, the lift's delivered counter
increments, and the lift does not fire. -/
theorem resolve_liftMid_step (n : Nat) (f : List Val → Val)
    (occ : Nat → Option Val) (k i : Nat) (w : Val) (fuel : Nat)
    (hi : i < n) (hk : ¬ k + 1 = n) :
    resolve (fuel + 3) (liftMid n f occ k) i w =
      ⟨liftMid n f (fun j => if j = i then some w else occ j) (k + 1),
        none⟩ := by
  have hheap : (liftMid n f occ k).heap i = some (sinkAt (occ i) n) := by
    simp [liftMid, hi]
  have e1 : resolve (fuel + 3) (liftMid n f occ k) i w =
      pushList (fuel + 2)
        (liftMid n f (fun j => if j = i then some w else occ j) k)
        [.future n] w := by
    rw [resolve_step (fuel + 2) _ i w _ hheap,
      liftMid_set_sink n f occ k i w hi]
    rfl
  have hheapn : (liftMid n f (fun j => if j = i then some w else occ j)
      k).heap n =
      some { kind := .lift f (List.range n) k n, listeners := [.sub 0] } := by
    simp [liftMid]
  have e2 : pushList (fuel + 2)
      (liftMid n f (fun j => if j = i then some w else occ j) k)
      [.future n] w =
      push (fuel + 1)
        (liftMid n f (fun j => if j = i then some w else occ j) k)
        (.future n) w :=
    pushList_single fuel _ _ w
  have e3 : push (fuel + 1)
      (liftMid n f (fun j => if j = i then some w else occ j) k)
      (.future n) w =
      ⟨setNode (liftMid n f (fun j => if j = i then some w else occ j) k) n
        { kind := .lift f (List.range n) (k + 1) n, occurred := false,
          value := none, listeners := [.sub 0] }, none⟩ :=
    push_lift_step fuel _ n _ f (List.range n) k n w hheapn rfl hk
  rw [e1, e2, e3, liftMid_bump]

/-- The lift node with delivered counter `d`, as stored in the scenario. -/
def liftNode (f : List Val → Val) (n d : Nat) : Node :=
  { kind := .lift f (List.range n) d n, listeners := [.sub 0] }

/-- The lift node after firing with value `val`. -/
def liftDone (f : List Val → Val) (n : Nat) (val : Val) : Node :=
  { kind := .lift f (List.range n) n n
    occurred := true
    value := some val
    listeners := [.sub 0] }

theorem liftMid_heap_lift (n : Nat) (f : List Val → Val)
    (occ : Nat → Option Val) (k : Nat) :
    (liftMid n f occ k).heap n = some (liftNode f n k) := by
  simp [liftMid, liftNode]

theorem liftMid_bump' (n : Nat) (f : List Val → Val) (occ : Nat → Option Val)
    (k k' : Nat) :
    setNode (liftMid n f occ k) n (liftNode f n k') = liftMid n f occ k' :=
  liftMid_bump n f occ k k'

/-- Resolving the last missing sink: the push that completes the set makes
the lift read every parent's stored value in parent-sequence order, resolve
with their combination, and notify its subscriber. -/
theorem resolve_liftMid_fire (n : Nat) (f : List Val → Val)
    (occ : Nat → Option Val) (k i : Nat) (w : Val) (fuel : Nat)
    (hi : i < n) (hk : k + 1 = n) :
    resolve (fuel + 7) (liftMid n f occ k) i w =
      ⟨liftFinal n f (fun j => if j = i then some w else occ j), none⟩ := by
  subst hk
  have hheap : (liftMid (k + 1) f occ k).heap i =
      some (sinkAt (occ i) (k + 1)) := by
    simp [liftMid, hi]
  have e1 : resolve (fuel + 7) (liftMid (k + 1) f occ k) i w =
      pushList (fuel + 6)
        (liftMid (k + 1) f (fun j => if j = i then some w else occ j) k)
        [.future (k + 1)] w := by
    rw [resolve_step (fuel + 6) _ i w _ hheap,
      liftMid_set_sink (k + 1) f occ k i w hi]
    rfl
  have e2 : pushList (fuel + 6)
      (liftMid (k + 1) f (fun j => if j = i then some w else occ j) k)
      [.future (k + 1)] w =
      push (fuel + 5)
        (liftMid (k + 1) f (fun j => if j = i then some w else occ j) k)
        (.future (k + 1)) w :=
    pushList_single (fuel + 4) _ _ w
  have e3 : push (fuel + 5)
      (liftMid (k + 1) f (fun j => if j = i then some w else occ j) k)
      (.future (k + 1)) w =
      resolve (fuel + 4)
        (setNode
          (liftMid (k + 1) f (fun j => if j = i then some w else occ j) k)
          (k + 1) (liftNode f (k + 1) (k + 1)))
        (k + 1)
        (f ((List.range (k + 1)).map fun j =>
          (((setNode
              (liftMid (k + 1) f (fun j => if j = i then some w else occ j)
                k)
              (k + 1) (liftNode f (k + 1) (k + 1))).heap j).bind
            Node.value).getD 0)) :=
    push_lift_fire (fuel + 4) _ (k + 1) _ f (List.range (k + 1)) k (k + 1) w
      (liftMid_heap_lift (k + 1) f _ k) rfl rfl
  rw [e1, e2, e3,
    liftMid_bump' (k + 1) f (fun j => if j = i then some w else occ j) k
      (k + 1)]
  have hvals : ((List.range (k + 1)).map fun j =>
      (((liftMid (k + 1) f (fun j => if j = i then some w else occ j)
        (k + 1)).heap j).bind Node.value).getD 0) =
      (List.range (k + 1)).map fun j =>
        ((if j = i then some w else occ j) : Option Val).getD 0 := by
    refine List.map_congr_left ?_
    intro j hj
    have hjlt : j < k + 1 := List.mem_range.mp hj
    simp [liftMid, hjlt, sinkAt]
  rw [hvals]
  have e4 : resolve (fuel + 4)
      (liftMid (k + 1) f (fun j => if j = i then some w else occ j) (k + 1))
      (k + 1)
      (f ((List.range (k + 1)).map fun j =>
        ((if j = i then some w else occ j) : Option Val).getD 0)) =
      pushList (fuel + 3)
        (setNode
          (liftMid (k + 1) f (fun j => if j = i then some w else occ j)
            (k + 1))
          (k + 1)
          (liftDone f (k + 1)
            (f ((List.range (k + 1)).map fun j =>
              ((if j = i then some w else occ j) : Option Val).getD 0))))
        [.sub 0]
        (f ((List.range (k + 1)).map fun j =>
          ((if j = i then some w else occ j) : Option Val).getD 0)) := by
    rw [resolve_step (fuel + 3) _ (k + 1) _ _
      (liftMid_heap_lift (k + 1) f _ (k + 1))]
    rfl
  have e5 := pushList_single (fuel + 1)
    (setNode
      (liftMid (k + 1) f (fun j => if j = i then some w else occ j) (k + 1))
      (k + 1)
      (liftDone f (k + 1)
        (f ((List.range (k + 1)).map fun j =>
          ((if j = i then some w else occ j) : Option Val).getD 0))))
    (.sub 0)
    (f ((List.range (k + 1)).map fun j =>
      ((if j = i then some w else occ j) : Option Val).getD 0))
  rw [e4, e5, push_sub]
  congr 1
  unfold setNode liftMid liftFinal liftDone
  congr 1
  · funext j
    by_cases hjn : j = k + 1
    · subst hjn
      simp
    · by_cases hlt : j < k + 1
      · simp [hjn, hlt]
      · simp [hjn, hlt]

theorem andThen_assoc (r : Res) (k1 k2 : FState → Res) :
    (r.andThen k1).andThen k2 = r.andThen fun s => (k1 s).andThen k2 := by
  obtain ⟨st, e⟩ := r
  cases e <;> rfl

theorem resolveSeq_append (fuel : Nat) (v : Nat → Val) (p q : List Nat) :
    ∀ s, resolveSeq fuel s (p ++ q) v =
      (resolveSeq fuel s p v).andThen fun s' => resolveSeq fuel s' q v := by
  induction p with
  | nil =>
    intro s
    rfl
  | cons i rest ih =>
    intro s
    show (resolve fuel s i (v i)).andThen
        (fun s' => resolveSeq fuel s' (rest ++ q) v) = _
    have hih : (fun s' => resolveSeq fuel s' (rest ++ q) v) =
        fun s' => (resolveSeq fuel s' rest v).andThen
          fun s'' => resolveSeq fuel s'' q v := by
      funext s'
      exact ih s'
    rw [hih]
    exact (andThen_assoc (resolve fuel s i (v i))
      (fun s' => resolveSeq fuel s' rest v)
      (fun s'' => resolveSeq fuel s'' q v)).symm

/-- Resolving any sequence of distinct sinks that does not yet complete the
parent set keeps the lift unfired: the state stays in `liftMid` form, with
the delivered counter advanced by the sequence length. -/
theorem resolveSeq_liftMid (n : Nat) (f : List Val → Val) (v : Nat → Val)
    (p : List Nat) :
    ∀ (occ : Nat → Option Val) (k fuel : Nat),
      (∀ i ∈ p, i < n) → k + p.length < n →
      resolveSeq (fuel + 7) (liftMid n f occ k) p v =
        ⟨liftMid n f (fun j => if j ∈ p then some (v j) else occ j)
          (k + p.length), none⟩ := by
  induction p with
  | nil =>
    intro occ k fuel _ _
    have hocc : (fun j => if j ∈ ([] : List Nat) then some (v j) else occ j)
        = occ := by
      funext j
      simp
    rw [hocc]
    rfl
  | cons i rest ih =>
    intro occ k fuel hmem hlen
    have hi : i < n := hmem i (by simp)
    have hlen' : k + (rest.length + 1) < n := by
      simpa [List.length_cons] using hlen
    have hk : ¬ k + 1 = n := by omega
    show (resolve (fuel + 7) (liftMid n f occ k) i (v i)).andThen
        (fun s' => resolveSeq (fuel + 7) s' rest v) = _
    have hstep : resolve (fuel + 7) (liftMid n f occ k) i (v i) =
        ⟨liftMid n f (fun j => if j = i then some (v i) else occ j) (k + 1),
          none⟩ :=
      resolve_liftMid_step n f occ k i (v i) (fuel + 4) hi hk
    rw [hstep, andThen_ok,
      ih (fun j => if j = i then some (v i) else occ j) (k + 1) fuel
        (fun q hq => hmem q (by simp [hq])) (by omega)]
    have hfun : (fun j => if j ∈ rest then some (v j)
        else if j = i then some (v i) else occ j) =
        fun j => if j ∈ i :: rest then some (v j) else occ j := by
      funext j
      by_cases hjr : j ∈ rest
      · simp [hjr]
      · by_cases hji : j = i
        · subst hji
          simp [hjr]
        · simp [hjr, hji]
    rw [hfun]
    have hlen2 : k + 1 + rest.length = k + (i :: rest).length := by
      simp [List.length_cons]
      omega
    rw [hlen2]

/-- Claim C4: an n-ary lift over parents `0 … n-1` fires exactly once, only
after all `n` parents have occurred, and for every order (permutation
`perm` of the parents) in which the parents are resolved its final value is
`f` applied to the parents' stored values in parent-sequence order.  For
every proper prefix of the resolution sequence the lift has not occurred
and its subscriber has seen nothing; after the full sequence the lift has
occurred with value `f [v 0, …, v (n-1)]` — independent of `perm` — and its
subscriber was notified exactly once. -/
theorem lift_fires_once_after_all (n : Nat) (f : List Val → Val)
    (v : Nat → Val) (perm : List Nat) (hn : 0 < n)
    (hperm : perm.Perm (List.range n)) (fuel : Nat) :
    (liftSetup n f).err = none ∧
    (∀ p q, perm = p ++ q → q ≠ [] →
      (resolveSeq (fuel + 7) (liftSetup n f).state p v).state.occurredAt n
        = false ∧
      (resolveSeq (fuel + 7) (liftSetup n f).state p v).state.log = []) ∧
    (resolveSeq (fuel + 7) (liftSetup n f).state perm v).err = none ∧
    (resolveSeq (fuel + 7) (liftSetup n f).state perm v).state.occurredAt n
      = true ∧
    (resolveSeq (fuel + 7) (liftSetup n f).state perm v).state.valueAt n =
      some (f ((List.range n).map v)) ∧
    (resolveSeq (fuel + 7) (liftSetup n f).state perm v).state.log =
      [(0, f ((List.range n).map v))] := by
  have hstate : (liftSetup n f).state = liftMid n f (fun _ => none) 0 := by
    rw [liftSetup_eq]
  have herr : (liftSetup n f).err = none := by
    rw [liftSetup_eq]
  have hprefix : ∀ p q, perm = p ++ q → q ≠ [] →
      (resolveSeq (fuel + 7) (liftSetup n f).state p v).state.occurredAt n
        = false ∧
      (resolveSeq (fuel + 7) (liftSetup n f).state p v).state.log = [] := by
    intro p q hpq hq
    have hmem : ∀ i ∈ p, i < n := by
      intro i hi
      exact List.mem_range.mp
        (hperm.mem_iff.mp (hpq ▸ List.mem_append_left q hi))
    have hlenpq : p.length + q.length = n := by
      have hl := hperm.length_eq
      rw [hpq] at hl
      simpa [List.length_append, List.length_range] using hl
    have hqpos : 0 < q.length := List.length_pos.mpr hq
    have hlen : 0 + p.length < n := by omega
    rw [hstate, resolveSeq_liftMid n f v p (fun _ => none) 0 fuel hmem hlen]
    constructor
    · simp [liftMid, FState.occurredAt]
    · rfl
  obtain ⟨L, a, hconcat⟩ : ∃ L a, perm = L ++ [a] := by
    rcases List.eq_nil_or_concat perm with h | ⟨L, b, h⟩
    · exfalso
      have hl := hperm.length_eq
      rw [h] at hl
      simp [List.length_range] at hl
      omega
    · exact ⟨L, b, by simpa [List.concat_eq_append] using h⟩
  have hmemperm : ∀ i ∈ perm, i < n := by
    intro i hi
    exact List.mem_range.mp (hperm.mem_iff.mp hi)
  have ha_n : a < n := hmemperm a (by simp [hconcat])
  have hmemL : ∀ i ∈ L, i < n := by
    intro i hi
    exact hmemperm i (by simp [hconcat, hi])
  have hlenL : L.length + 1 = n := by
    have hl := hperm.length_eq
    rw [hconcat] at hl
    simpa [List.length_append, List.length_range] using hl
  have hfull : resolveSeq (fuel + 7) (liftMid n f (fun _ => none) 0) perm v
      = ⟨liftFinal n f (fun j => if j = a then some (v a)
          else if j ∈ L then some (v j) else none), none⟩ := by
    rw [hconcat, resolveSeq_append,
      resolveSeq_liftMid n f v L (fun _ => none) 0 fuel hmemL (by omega),
      andThen_ok]
    show (resolve (fuel + 7)
        (liftMid n f (fun j => if j ∈ L then some (v j) else none)
          (0 + L.length)) a (v a)).andThen
      (fun s' => resolveSeq (fuel + 7) s' [] v) = _
    rw [resolve_liftMid_fire n f
      (fun j => if j ∈ L then some (v j) else none) (0 + L.length) a (v a)
      fuel ha_n (by omega)]
    rfl
  have hmapv : ((List.range n).map fun j =>
      ((if j = a then some (v a)
        else if j ∈ L then some (v j) else none : Option Val)).getD 0) =
      (List.range n).map v := by
    refine List.map_congr_left ?_
    intro j hj
    have hjperm : j ∈ perm := hperm.mem_iff.mpr hj
    rw [hconcat] at hjperm
    rcases List.mem_append.mp hjperm with hjL | hja
    · by_cases hja : j = a
      · subst hja
        simp
      · simp [hja, hjL]
    · have : j = a := by simpa using hja
      subst this
      simp
  refine ⟨herr, hprefix, ?_, ?_, ?_, ?_⟩ <;>
    rw [hstate, hfull] <;>
    simp [liftFinal, FState.occurredAt, FState.valueAt, hmapv]

/-- Witness for `lift_fires_once_after_all`: three parents resolved in the
order `1, 2, 0` with values `v i = i + 1`, combined by summation:
the lift ends holding `1 + 2 + 3 = 6`. -/
theorem lift_fires_once_after_all_witness :
    (0 < 3) ∧ ([1, 2, 0] : List Nat).Perm (List.range 3) ∧
    (resolveSeq (0 + 7) (liftSetup 3 (fun vs => vs.foldl (· + ·) 0)).state
      [1, 2, 0] (fun i => (i : Val) + 1)).state.valueAt 3 = some 6 :=
  ⟨by decide, by decide, by
    rw [(lift_fires_once_after_all 3 (fun vs => vs.foldl (· + ·) 0)
      (fun i => (i : Val) + 1) [1, 2, 0] (by decide) (by decide)
      0).2.2.2.2.1]
    decide⟩

end Fut
